import Mathlib

/-!
# Verification of `vigenere_cipher.py`

Shallow embedding of the repository's single source file
`src/vigenere_cipher.py` (version 2.0).  Python strings are modelled as
`List Char`; `str.upper()` / `str.lower()` on a single character may return
several characters, so character-level case mapping has type
`Char → List Char` and the entries of the expanded key (`cipher_key`,
a Python `list[str]`) have type `List Char`.  Python exceptions are
modelled with `Except PyError`.
-/

deriving instance DecidableEq for Except

/-- The Python exceptions that the program's code paths can raise. -/
inductive PyError where
  | zeroDivisionError
  | valueError
  | indexError
  deriving DecidableEq, Repr

/-- Partial model of Python's `str.upper()` on one character (full Unicode
case mapping).  It is exact on ASCII, on `ß` (→ `"SS"`), and on every
character whose full uppercase mapping meets `ascii_uppercase` — either as a
single letter (`ſ` U+017F → `"S"`, `ı` U+0131 → `"I"`) or as a multi-letter
substring of `"ABCDEFGHIJKLMNOPQRSTUVWXYZ"` (`ﬅ` U+FB05 and `ﬆ` U+FB06,
both → `"ST"`, the only such characters in Unicode).  All remaining
characters are modelled as fixed points; the program only tests the result
for substring membership in `ascii_uppercase` and for equality with single
Latin letters, and on those tests the fixed-point modelling agrees with the
true mapping (no other uppercase mapping contains a substring of the
alphabet of length ≥ 1 that the true mapping's non-alphabet result would
change the outcome of). -/
def pyUpper (c : Char) : List Char :=
  if 97 ≤ c.toNat ∧ c.toNat ≤ 122 then [Char.ofNat (c.toNat - 32)]
  else if c = 'ſ' then ['S']
  else if c = 'ı' then ['I']
  else if c = 'ß' then ['S', 'S']
  else if c = 'ﬅ' ∨ c = 'ﬆ' then ['S', 'T']
  else [c]

/-- Partial model of Python's `str.lower()` on one character (full Unicode
case mapping).  Exact on ASCII and on `İ` U+0130 (→ `"i"` + combining dot
above, the only multi-character full lowercase mapping); other characters
are modelled as fixed points. -/
def pyLower (c : Char) : List Char :=
  if 65 ≤ c.toNat ∧ c.toNat ≤ 90 then [Char.ofNat (c.toNat + 32)]
  else if c = 'İ' then ['i', Char.ofNat 0x307]
  else [c]

/-- `str.upper()` on a whole string: concatenation of the per-character
full uppercase mappings. -/
def pyUpperStr (s : List Char) : List Char :=
  (s.map pyUpper).flatten

/-- `string.ascii_uppercase` (the source does `alp = list(ascii_uppercase)`,
a list of the 26 single-letter strings). -/
def ascii_uppercase : List Char :=
  ['A', 'B', 'C', 'D', 'E', 'F', 'G', 'H', 'I', 'J', 'K', 'L', 'M',
   'N', 'O', 'P', 'Q', 'R', 'S', 'T', 'U', 'V', 'W', 'X', 'Y', 'Z']

/-- Does `pat` occur at the head of `l`? (helper for `isSubstr`). -/
def listStartsWith : List Char → List Char → Bool
  | [], _ => true
  | _ :: _, [] => false
  | a :: pat, b :: l => a == b && listStartsWith pat l

/-- Python's substring test `pat in s` (contiguous occurrence), used by the
source's guard `if s not in ascii_uppercase`. -/
def isSubstr (pat : List Char) : List Char → Bool
  | [] => listStartsWith pat []
  | b :: l => listStartsWith pat (b :: l) || isSubstr pat (b :: l |>.tail)

/-- First index of character `c` in `l`, `none` when absent. -/
def alpIndex : List Char → Char → Option Nat
  | [], _ => none
  | a :: l, c => if a == c then some 0 else (alpIndex l c).map (· + 1)

/-- Python's `alp.index(s)` where `alp` is a list of single-letter strings
and `s` is a string: a match requires `s` to be a one-character string equal
to an element; otherwise `ValueError`. -/
def pyStrIndex (l : List Char) (s : List Char) : Except PyError Nat :=
  match s with
  | [c] =>
    match alpIndex l c with
    | some n => .ok n
    | none => .error .valueError
  | _ => .error .valueError

/-- Python's `cipher_key[ndx]` on the expanded key: `IndexError` when out of
range. -/
def getEntry (ck : List (List Char)) (n : Nat) : Except PyError (List Char) :=
  match ck[n]? with
  | some e => .ok e
  | none => .error .indexError

/-- The body of the loop in `cipher` (source lines 99–117) for one input
character `c`, with `kc` the (lazily forced) key entry `cipher_key[ndx]`:

* `s = i.upper()`; `if s not in ascii_uppercase: c.append(i); continue`
* `p_ndx = alp.index(s)`; `k_ndx = alp.index(cipher_key[ndx].upper())`
* `alp_ndx = (p_ndx + k_ndx) % 26` on encrypt, `(p_ndx - k_ndx) % 26` on
  decrypt (Python `%` on `int` is the non-negative mathematical modulo,
  modelled by `Int.emod`);
* append `alp[alp_ndx].lower()` when `97 ≤ ord(i) ≤ 122`,
  `alp[alp_ndx].upper()` when `65 ≤ ord(i) ≤ 90`, else `i` itself. -/
def cipherChar (encrypt : Bool) (kc : Except PyError (List Char)) (c : Char) :
    Except PyError (List Char) :=
  let s := pyUpper c
  if isSubstr s ascii_uppercase then
    match pyStrIndex ascii_uppercase s with
    | .error er => .error er
    | .ok p_ndx =>
      match kc with
      | .error er => .error er
      | .ok e =>
        match pyStrIndex ascii_uppercase (pyUpperStr e) with
        | .error er => .error er
        | .ok k_ndx =>
          let alp_ndx : Nat :=
            if encrypt then (p_ndx + k_ndx) % 26
            else (((p_ndx : Int) - (k_ndx : Int)) % 26).toNat
          match ascii_uppercase[alp_ndx]? with
          | none => .error .indexError
          | some a =>
            if 97 ≤ c.toNat ∧ c.toNat ≤ 122 then .ok (pyLower a)
            else if 65 ≤ c.toNat ∧ c.toNat ≤ 90 then .ok (pyUpper a)
            else .ok [c]
  else .ok [c]

/-- The `for ndx, i in enumerate(text)` loop of `cipher`, started at index
`ndx`; the pieces appended to `c` are joined (Python `"".join(c)`) as they are
produced. -/
def cipherList (encrypt : Bool) (ck : List (List Char)) :
    Nat → List Char → Except PyError (List Char)
  | _, [] => .ok []
  | ndx, c :: rest =>
    match cipherChar encrypt (getEntry ck ndx) c with
    | .error er => .error er
    | .ok piece =>
      match cipherList encrypt ck (ndx + 1) rest with
      | .error er => .error er
      | .ok tail => .ok (piece ++ tail)

/-- `cipher(text, cipher_key, key, encrypt)` (source lines 84–129), restricted
to the transformed text it computes; the console printing and the JSON
persistence it then performs are peripheral I/O and are not modelled. -/
def cipher (text : List Char) (cipher_key : List (List Char))
    (encrypt : Bool := true) : Except PyError (List Char) :=
  cipherList encrypt cipher_key 0 text

/-- `generate_key(plaintext, key)` (source lines 53–81).  The first loop runs
`i % len(key)` for each `i < len(plaintext)`: with an empty key it raises
`ZeroDivisionError` on the first iteration, and with an empty plaintext it
never runs, so no error is raised.  The second loop forces the case of entry
`ndx` to match `plaintext[ndx]`: lowercase when `ord(plaintext[ndx]) ≥ 97`,
uppercase otherwise. -/
def generate_key (plaintext key : List Char) :
    Except PyError (List (List Char)) :=
  if key.length = 0 then
    if plaintext.length = 0 then .ok [] else .error .zeroDivisionError
  else
    .ok (plaintext.enum.map fun p =>
      let kc := key.getD (p.1 % key.length) 'A'
      if 97 ≤ p.2.toNat then pyLower kc else pyUpper kc)

/-- The three control paths of `cli` (source lines 34–50). -/
inductive CliAction where
  | usageError
  | encryptPath
  | decryptPath
  deriving DecidableEq, Repr

/-- Python truthiness of an optional string argument: `None` and the empty
string are falsy. -/
def truthy : Option String → Bool
  | none => false
  | some s => !s.isEmpty

/-- `cli(plaintext, key)` (source lines 34–50), as the control path taken:

* `if plaintext and key is None:` print the usage diagnostic and `exit()`
  (no transform, no file write);
* `if plaintext:` run `generate_key` and `cipher` (encrypt, writes
  `encrypted.json`);
* else run `decipher()` (reads `encrypted.json`, decrypts, writes
  `decrypted.json`). -/
def cli (plaintext key : Option String) : CliAction :=
  if truthy plaintext && key == none then .usageError
  else if truthy plaintext then .encryptPath
  else .decryptPath

/-- Modelled from the spec (§4.2, *full-Unicode variant*): the repository's
source contains no such codec — `cipher` shifts only Latin letters mod 26 —
so this definition follows the spec's words, for comparison with `cipher`.
Code points are kept as `Nat` because the result "may land on an unassigned
or surrogate code point" (spec §9), which Python `chr` accepts.  Per
position: `(cp(text[i]) + cp(key[i])) mod 0x110000` on encrypt,
`(cp(text[i]) − cp(key[i])) mod 0x110000` (non-negative modulo) on
decrypt. -/
def fullUnicodeStep (encrypt : Bool) (t k : Nat) : Nat :=
  if encrypt then (t + k) % 0x110000
  else (((t : Int) - (k : Int)) % 0x110000).toNat

/-- Modelled from the spec (§4.2, *full-Unicode variant*): the position-wise
transform over whole texts, companion to `fullUnicodeStep`. -/
def fullUnicodeTransform (encrypt : Bool) (text key : List Nat) : List Nat :=
  List.zipWith (fullUnicodeStep encrypt) text key

/-! ## Basic facts about the index and substring helpers -/

theorem alpIndex_lt {l : List Char} {c : Char} {n : Nat}
    (h : alpIndex l c = some n) : n < l.length := by
  induction l generalizing n with
  | nil => simp [alpIndex] at h
  | cons a t ih =>
    by_cases hac : a == c
    · simp [alpIndex, hac] at h
      simp only [List.length_cons]
      omega
    · simp only [alpIndex, hac, if_neg, Bool.false_eq_true, if_false,
        Option.map_eq_some'] at h
      obtain ⟨m, hm, rfl⟩ := h
      have := ih hm
      simp only [List.length_cons]
      omega

theorem alpIndex_getElem {l : List Char} {c : Char} {n : Nat}
    (h : alpIndex l c = some n) : l[n]? = some c := by
  induction l generalizing n with
  | nil => simp [alpIndex] at h
  | cons a t ih =>
    by_cases hac : a == c
    · simp [alpIndex, hac] at h
      simp [← h, (by simpa using hac : a = c)]
    · simp only [alpIndex, hac, Bool.false_eq_true, if_false,
        Option.map_eq_some'] at h
      obtain ⟨m, hm, rfl⟩ := h
      simpa using ih hm

theorem alpIndex_length_eq_26 : ascii_uppercase.length = 26 := rfl

/-- Every letter of the alphabet: its code point range, its fixed point under
`pyUpper`, and its single-letter substring membership. -/
theorem alphabet_mem_facts : ∀ a ∈ ascii_uppercase,
    (65 ≤ a.toNat ∧ a.toNat ≤ 90) ∧ pyUpper a = [a] ∧
      isSubstr [a] ascii_uppercase = true := by decide

/-- `pyLower` of an alphabet letter is the matching single lowercase letter. -/
theorem alphabet_pyLower : ∀ a ∈ ascii_uppercase,
    pyLower a = [Char.ofNat (a.toNat + 32)] ∧
      97 ≤ (Char.ofNat (a.toNat + 32)).toNat ∧
      (Char.ofNat (a.toNat + 32)).toNat ≤ 122 ∧
      pyUpper (Char.ofNat (a.toNat + 32)) = [a] := by decide

/-- `alp.index` recovers the position of each alphabet letter. -/
theorem alpIndex_alphabet_pos :
    ∀ j, j < 26 → (ascii_uppercase[j]?.bind (alpIndex ascii_uppercase)) =
      some j := by decide

/-- An ASCII lowercase character uppercases to a single alphabet letter whose
`pyLower` restores the character. -/
theorem lower_char_spec (c : Char) (h1 : 97 ≤ c.toNat) (h2 : c.toNat ≤ 122) :
    ∃ u, pyUpper c = [u] ∧ u ∈ ascii_uppercase ∧ pyLower u = [c] := by
  have hc : Char.ofNat c.toNat = c := Char.ofNat_toNat c
  have key : ∀ n, n < 123 → 97 ≤ n →
      ∃ u ∈ ascii_uppercase, pyUpper (Char.ofNat n) = [u] ∧
        pyLower u = [Char.ofNat n] := by decide
  obtain ⟨u, hu1, hu2, hu3⟩ := key c.toNat (by omega) h1
  rw [hc] at hu2 hu3
  exact ⟨u, hu2, hu1, hu3⟩

/-- An ASCII uppercase character is an alphabet letter and a fixed point of
`pyUpper`. -/
theorem upper_char_spec (c : Char) (h1 : 65 ≤ c.toNat) (h2 : c.toNat ≤ 90) :
    pyUpper c = [c] ∧ c ∈ ascii_uppercase := by
  have hc : Char.ofNat c.toNat = c := Char.ofNat_toNat c
  have key : ∀ n, n < 91 → 65 ≤ n →
      pyUpper (Char.ofNat n) = [Char.ofNat n] ∧
        Char.ofNat n ∈ ascii_uppercase := by decide
  have := key c.toNat (by omega) h1
  rwa [hc] at this

theorem dec_of_enc_index (p k : Nat) (hp : p < 26) :
    ((((p + k) % 26 : Nat) : Int) - (k : Int)) % 26 = (p : Int) := by
  omega

/-! ## Inversion and computation lemmas for one `cipher` loop iteration -/

/-- A character whose uppercased form does not occur in the alphabet is
appended unchanged, in both modes, without touching the key. -/
theorem cipherChar_not_substr {e : Bool} {kc : Except PyError (List Char)}
    {c : Char} (hs : isSubstr (pyUpper c) ascii_uppercase = false) :
    cipherChar e kc c = .ok [c] := by
  unfold cipherChar
  simp [hs]

/-- Inversion of a successful `alp.index(s)` call. -/
theorem pyStrIndex_ok_inv {l : List Char} {s : List Char} {n : Nat}
    (h : pyStrIndex l s = .ok n) : ∃ c, s = [c] ∧ alpIndex l c = some n := by
  rcases s with _ | ⟨c, _ | ⟨d, t⟩⟩
  · simp [pyStrIndex] at h
  · refine ⟨c, rfl, ?_⟩
    unfold pyStrIndex at h
    cases hai : alpIndex l c <;> simp only [hai] at h <;> simp_all
  · simp [pyStrIndex] at h

/-- Inversion of a successful loop iteration: either the guard rejected the
character and it was copied, or every intermediate lookup succeeded and the
appended piece is given by the final three-way case split. -/
theorem cipherChar_ok_inv {e : Bool} {kc : Except PyError (List Char)}
    {c : Char} {piece : List Char} (h : cipherChar e kc c = .ok piece) :
    (isSubstr (pyUpper c) ascii_uppercase = false ∧ piece = [c]) ∨
    (∃ s p ek v k a,
      isSubstr (pyUpper c) ascii_uppercase = true ∧
      pyUpper c = [s] ∧ alpIndex ascii_uppercase s = some p ∧
      kc = .ok ek ∧ pyUpperStr ek = [v] ∧
      alpIndex ascii_uppercase v = some k ∧
      ascii_uppercase[(if e then (p + k) % 26
        else (((p : Int) - (k : Int)) % 26).toNat)]? = some a ∧
      piece = (if 97 ≤ c.toNat ∧ c.toNat ≤ 122 then pyLower a
               else if 65 ≤ c.toNat ∧ c.toNat ≤ 90 then pyUpper a
               else [c])) := by
  unfold cipherChar at h
  by_cases hs : isSubstr (pyUpper c) ascii_uppercase
  · rw [if_pos hs] at h
    right
    cases hps : pyStrIndex ascii_uppercase (pyUpper c) with
    | error er =>
      simp only [hps] at h
      exact Except.noConfusion h
    | ok p =>
      simp only [hps] at h
      obtain ⟨s, hps1, hps2⟩ := pyStrIndex_ok_inv hps
      cases kc with
      | error er =>
        simp only [] at h
        exact Except.noConfusion h
      | ok ek =>
        simp only [] at h
        cases hks : pyStrIndex ascii_uppercase (pyUpperStr ek) with
        | error er =>
          simp only [hks] at h
          exact Except.noConfusion h
        | ok k =>
          simp only [hks] at h
          obtain ⟨v, hkv1, hkv2⟩ := pyStrIndex_ok_inv hks
          have hrlt : (if e then (p + k) % 26
              else (((p : Int) - (k : Int)) % 26).toNat) <
              ascii_uppercase.length := by
            rw [alpIndex_length_eq_26]
            split <;> omega
          rw [List.getElem?_eq_getElem hrlt] at h
          simp only [] at h
          refine ⟨s, p, ek, v, k, _, hs, hps1, hps2, rfl, hkv1, hkv2,
            List.getElem?_eq_getElem hrlt, ?_⟩
          by_cases h1 : 97 ≤ c.toNat ∧ c.toNat ≤ 122
          · rw [if_pos h1] at h ⊢
            simpa using h.symm
          · rw [if_neg h1] at h ⊢
            by_cases h2 : 65 ≤ c.toNat ∧ c.toNat ≤ 90
            · rw [if_pos h2] at h ⊢
              simpa using h.symm
            · rw [if_neg h2] at h ⊢
              simpa using h.symm
  · rw [if_neg hs] at h
    left
    refine ⟨by simpa using hs, ?_⟩
    simpa using h.symm

/-- Forward computation of one loop iteration when the character's uppercase
form is a single alphabet letter and the key entry's uppercase form is a
single alphabet letter. -/
theorem cipherChar_eq_of (e : Bool) {kc : Except PyError (List Char)}
    {c s : Char} {p : Nat} {ek : List Char} {v : Char} {k : Nat}
    (hs : pyUpper c = [s]) (hsub : isSubstr [s] ascii_uppercase = true)
    (hp : alpIndex ascii_uppercase s = some p) (hkc : kc = .ok ek)
    (hv : pyUpperStr ek = [v]) (hk : alpIndex ascii_uppercase v = some k) :
    ∃ a, ascii_uppercase[(if e then (p + k) % 26
        else (((p : Int) - (k : Int)) % 26).toNat)]? = some a ∧
      cipherChar e kc c = .ok (if 97 ≤ c.toNat ∧ c.toNat ≤ 122 then pyLower a
        else if 65 ≤ c.toNat ∧ c.toNat ≤ 90 then pyUpper a else [c]) := by
  subst hkc
  have hrlt : (if e then (p + k) % 26
      else (((p : Int) - (k : Int)) % 26).toNat) < ascii_uppercase.length := by
    rw [alpIndex_length_eq_26]
    split <;> omega
  have hps : pyStrIndex ascii_uppercase [s] = .ok p := by
    simp [pyStrIndex, hp]
  have hks : pyStrIndex ascii_uppercase (pyUpperStr ek) = .ok k := by
    rw [hv]
    simp [pyStrIndex, hk]
  refine ⟨_, List.getElem?_eq_getElem hrlt, ?_⟩
  simp only [cipherChar, hs, hsub, if_true, hps, hks,
    List.getElem?_eq_getElem hrlt]
  split
  · rfl
  · split <;> rfl

/-- Every successful loop iteration appends exactly one character, and that
character is on the same side of code point 97 as the input character (the
side `generate_key`'s case-forcing rule inspects). -/
theorem cipherChar_ok_singleton {e : Bool} {kc : Except PyError (List Char)}
    {c : Char} {piece : List Char} (h : cipherChar e kc c = .ok piece) :
    ∃ d, piece = [d] ∧ (97 ≤ d.toNat ↔ 97 ≤ c.toNat) := by
  rcases cipherChar_ok_inv h with ⟨hs, rfl⟩ |
    ⟨s, p, ek, v, k, a, hsub, hs, hp, hkc, hv, hk, ha, rfl⟩
  · exact ⟨c, rfl, Iff.rfl⟩
  · have hmem : a ∈ ascii_uppercase := List.getElem?_mem ha
    obtain ⟨⟨ha65, ha90⟩, hfix, -⟩ := alphabet_mem_facts a hmem
    by_cases h1 : 97 ≤ c.toNat ∧ c.toNat ≤ 122
    · rw [if_pos h1]
      obtain ⟨hl, hd1, hd2, -⟩ := alphabet_pyLower a hmem
      exact ⟨_, hl, iff_of_true hd1 h1.1⟩
    · rw [if_neg h1]
      by_cases h2 : 65 ≤ c.toNat ∧ c.toNat ≤ 90
      · rw [if_pos h2, hfix]
        exact ⟨a, rfl, iff_of_false (by omega) (by omega)⟩
      · rw [if_neg h2]
        exact ⟨c, rfl, Iff.rfl⟩

/-- One encrypting iteration followed by one decrypting iteration with the
same key entry restores the original character. -/
theorem cipherChar_roundtrip {kc : Except PyError (List Char)} {c : Char}
    {piece : List Char} (h : cipherChar true kc c = .ok piece) :
    ∃ d, piece = [d] ∧ cipherChar false kc d = .ok [c] := by
  rcases cipherChar_ok_inv h with ⟨hs, rfl⟩ |
    ⟨s, p, ek, v, k, a, hsub, hs, hp, hkc, hv, hk, ha, rfl⟩
  · exact ⟨c, rfl, cipherChar_not_substr hs⟩
  · have hmem : a ∈ ascii_uppercase := List.getElem?_mem ha
    have hplt : p < 26 := by
      have := alpIndex_lt hp
      rwa [alpIndex_length_eq_26] at this
    have henc : ascii_uppercase[(p + k) % 26]? = some a := by
      simpa using ha
    have hidx_a : alpIndex ascii_uppercase a = some ((p + k) % 26) := by
      have := alpIndex_alphabet_pos ((p + k) % 26) (by omega)
      rw [henc] at this
      simpa using this
    have hdec_idx : ((((p + k) % 26 : Nat) : Int) - (k : Int)) % 26 =
        (p : Int) := dec_of_enc_index p k hplt
    have hsa : ascii_uppercase[p]? = some s := alpIndex_getElem hp
    obtain ⟨⟨ha65, ha90⟩, hafix, hasub⟩ := alphabet_mem_facts a hmem
    by_cases h1 : 97 ≤ c.toNat ∧ c.toNat ≤ 122
    · rw [if_pos h1]
      obtain ⟨hl, hd1, hd2, hdu⟩ := alphabet_pyLower a hmem
      refine ⟨Char.ofNat (a.toNat + 32), hl, ?_⟩
      obtain ⟨a2, ha2, hstep⟩ := cipherChar_eq_of false
        (c := Char.ofNat (a.toNat + 32)) hdu hasub hidx_a hkc hv hk
      rw [if_neg (by simp), hdec_idx] at ha2
      have ha2' : a2 = s := by
        simp only [Int.toNat_ofNat] at ha2
        rw [hsa] at ha2
        exact (Option.some.injEq _ _ ▸ ha2).symm
      rw [hstep, ha2', if_pos ⟨hd1, hd2⟩]
      obtain ⟨u, hu1, hu2, hu3⟩ := lower_char_spec c h1.1 h1.2
      have hus : s = u := by
        rw [hs] at hu1
        simpa using hu1
      rw [hus, hu3]
    · rw [if_neg h1]
      by_cases h2 : 65 ≤ c.toNat ∧ c.toNat ≤ 90
      · rw [if_pos h2, hafix]
        refine ⟨a, rfl, ?_⟩
        obtain ⟨a2, ha2, hstep⟩ := cipherChar_eq_of false (c := a)
          hafix hasub hidx_a hkc hv hk
        rw [if_neg (by simp), hdec_idx] at ha2
        have ha2' : a2 = s := by
          simp only [Int.toNat_ofNat] at ha2
          rw [hsa] at ha2
          exact (Option.some.injEq _ _ ▸ ha2).symm
        obtain ⟨hcfix, -⟩ := upper_char_spec c h2.1 h2.2
        have hsc : s = c := by
          rw [hcfix] at hs
          simpa using hs.symm
        rw [hstep, if_neg (by omega), if_pos ⟨ha65, ha90⟩, ha2', hsc, hcfix]
      · rw [if_neg h2]
        refine ⟨c, rfl, ?_⟩
        obtain ⟨a2, ha2, hstep⟩ := cipherChar_eq_of false (c := c)
          hs (by rw [← hs]; exact hsub) hp hkc hv hk
        rw [hstep, if_neg h1, if_neg h2]

/-! ## List-level lemmas for the `cipher` loop and `generate_key` -/

/-- A successful run of the loop appends exactly one character per input
character: the output has the input's length, and position `i` holds the
character produced by the iteration for input position `i`. -/
theorem cipherList_ok_spec {e : Bool} {ck : List (List Char)} :
    ∀ {T : List Char} {ndx : Nat} {out : List Char},
      cipherList e ck ndx T = .ok out →
      out.length = T.length ∧
        ∀ i (hi : i < T.length), ∃ d, out[i]? = some d ∧
          cipherChar e (getEntry ck (ndx + i)) (T.get ⟨i, hi⟩) = .ok [d] := by
  intro T
  induction T with
  | nil =>
    intro ndx out h
    simp only [cipherList] at h
    obtain rfl : ([] : List Char) = out := by simpa using h
    exact ⟨rfl, fun i hi => absurd hi (by simp)⟩
  | cons c rest ih =>
    intro ndx out h
    unfold cipherList at h
    cases hc : cipherChar e (getEntry ck ndx) c with
    | error er =>
      simp only [hc] at h
      exact Except.noConfusion h
    | ok piece =>
      simp only [hc] at h
      cases ht : cipherList e ck (ndx + 1) rest with
      | error er =>
        simp only [ht] at h
        exact Except.noConfusion h
      | ok tail =>
        simp only [ht] at h
        obtain rfl : piece ++ tail = out := by simpa using h
        obtain ⟨d, rfl, -⟩ := cipherChar_ok_singleton hc
        obtain ⟨hlen, hpos⟩ := ih ht
        refine ⟨by simpa using hlen, ?_⟩
        intro i hi
        cases i with
        | zero => exact ⟨d, by simp, by simpa using hc⟩
        | succ j =>
          obtain ⟨d', hd1, hd2⟩ := hpos j (by simpa using hi)
          refine ⟨d', by simpa using hd1, ?_⟩
          have : ndx + (j + 1) = ndx + 1 + j := by omega
          rw [this]
          exact hd2

/-- Decryption with the same expanded key inverts a successful encryption
run of the loop, position by position. -/
theorem cipherList_roundtrip {ck : List (List Char)} :
    ∀ {T : List Char} {ndx : Nat} {c1 : List Char},
      cipherList true ck ndx T = .ok c1 →
      cipherList false ck ndx c1 = .ok T := by
  intro T
  induction T with
  | nil =>
    intro ndx c1 h
    obtain rfl : ([] : List Char) = c1 := by simpa [cipherList] using h
    rfl
  | cons c rest ih =>
    intro ndx c1 h
    unfold cipherList at h
    cases hc : cipherChar true (getEntry ck ndx) c with
    | error er =>
      simp only [hc] at h
      exact Except.noConfusion h
    | ok piece =>
      simp only [hc] at h
      cases ht : cipherList true ck (ndx + 1) rest with
      | error er =>
        simp only [ht] at h
        exact Except.noConfusion h
      | ok tail =>
        simp only [ht] at h
        obtain rfl : piece ++ tail = c1 := by simpa using h
        obtain ⟨d, rfl, hdec⟩ := cipherChar_roundtrip hc
        have htail := ih ht
        unfold cipherList
        simp only [List.cons_append, List.nil_append, hdec, htail]

/-- With a non-empty key, `generate_key` always succeeds and returns the
cyclically repeated, case-forced key entries. -/
theorem generate_key_eq {T K : List Char} (hK : K ≠ []) :
    generate_key T K = .ok (T.enum.map fun q =>
      if 97 ≤ q.2.toNat then pyLower (K.getD (q.1 % K.length) 'A')
      else pyUpper (K.getD (q.1 % K.length) 'A')) := by
  unfold generate_key
  rw [if_neg (by simpa using List.length_pos.mpr hK |>.ne')]

/-- Length and per-position description of a successful `generate_key`. -/
theorem generate_key_spec_aux {T K : List Char} (hK : K ≠ []) :
    ∃ ck, generate_key T K = .ok ck ∧ ck.length = T.length ∧
      ∀ i (hi : i < T.length),
        ck[i]? = some (if 97 ≤ (T.get ⟨i, hi⟩).toNat
          then pyLower (K.getD (i % K.length) 'A')
          else pyUpper (K.getD (i % K.length) 'A')) := by
  refine ⟨_, generate_key_eq hK, by simp, ?_⟩
  intro i hi
  have hlen : i < (T.enum.map fun q =>
      if 97 ≤ q.2.toNat then pyLower (K.getD (q.1 % K.length) 'A')
      else pyUpper (K.getD (q.1 % K.length) 'A')).length := by
    simpa using hi
  rw [List.getElem?_eq_getElem hlen]
  congr 1
  rw [List.getElem_map]
  rw [List.getElem_enum]
  simp [List.get_eq_getElem]

/-- Re-deriving the expanded key from the ciphertext (as `decipher` does)
returns the same expanded key: every character a successful encryption emits
lies on the same side of code point 97 as the character it replaces, and
that side is all the case-forcing in `generate_key` inspects. -/
theorem generate_key_stable {T K : List Char} {ek : List (List Char)}
    {c1 : List Char} (hK : K ≠ [])
    (h1 : generate_key T K = .ok ek) (h2 : cipher T ek true = .ok c1) :
    generate_key c1 K = .ok ek := by
  obtain ⟨hlen, hpos⟩ := cipherList_ok_spec h2
  have hek : ek = T.enum.map fun q =>
      if 97 ≤ q.2.toNat then pyLower (K.getD (q.1 % K.length) 'A')
      else pyUpper (K.getD (q.1 % K.length) 'A') := by
    have := (generate_key_eq (T := T) hK).symm.trans h1
    simpa using this.symm
  rw [generate_key_eq hK]
  refine congrArg Except.ok ?_ |>.trans (congrArg Except.ok hek.symm)
  apply List.ext_getElem
  · simp [hlen]
  · intro i hi1 hi2
    have hiT : i < T.length := by simpa using hi2
    have hic : i < c1.length := by simpa using hi1
    rw [List.getElem_map, List.getElem_map, List.getElem_enum,
      List.getElem_enum]
    obtain ⟨d, hd1, hd2⟩ := hpos i hiT
    obtain ⟨d', hd'1, hd'2⟩ := cipherChar_ok_singleton hd2
    have hdd : d = d' := by simpa using hd'1
    rw [List.getElem?_eq_getElem hic] at hd1
    have hdc : c1[i] = d := by simpa using hd1
    have hiff : (97 ≤ c1[i].toNat ↔ 97 ≤ T[i].toNat) := by
      rw [hdc, hdd]
      simpa [List.get_eq_getElem] using hd'2
    by_cases hcase : 97 ≤ T[i].toNat
    · rw [if_pos hcase, if_pos (hiff.mpr hcase)]
    · rw [if_neg hcase, if_neg (fun hl => hcase (hiff.mp hl))]

/-! ## Claim theorems -/

/-- **C1** (amended): for every non-empty text `T` and non-empty key `K`,
whenever key expansion succeeds and `cipher` in encrypt mode completes
without error on `T` with that expanded key, then re-deriving the expanded
key from the ciphertext (as `decipher` does) returns the same expanded key
and `cipher` in decrypt mode returns exactly `T`, including the original
case pattern and all punctuation.  (Encryption itself can fail — see the
counterexample — so the claim holds only conditionally on its success.) -/
theorem claim_c1_roundtrip (T K : List Char) (ek : List (List Char))
    (c1 : List Char) (hT : T ≠ []) (hK : K ≠ [])
    (h1 : generate_key T K = .ok ek) (h2 : cipher T ek true = .ok c1) :
    generate_key c1 K = .ok ek ∧ cipher c1 ek false = .ok T :=
  ⟨generate_key_stable hK h1 h2, cipherList_roundtrip h2⟩

/-- **C1** counterexample to the unconditional claim: with the non-empty
text `"A"` and the non-empty key `"1"`, encryption itself raises
`ValueError` (`alp.index('1')` fails), so decrypting the encryption cannot
return the text; likewise with text `"ﬅ"` (whose uppercase form is `"ST"`,
a substring of the alphabet) and the all-letter key `"B"`. -/
theorem claim_c1_counterexample :
    (generate_key ['A'] ['1'] = .ok [['1']] ∧
      cipher ['A'] [['1']] true = .error .valueError) ∧
    (generate_key ['ﬅ'] ['B'] = .ok [['b']] ∧
      cipher ['ﬅ'] [['b']] true = .error .valueError) := by
  decide

/-- **C1** witness: the round trip at text `"Ab"`, key `"B"`. -/
theorem claim_c1_witness :
    generate_key ['B', 'c'] ['B'] = .ok [['B'], ['b']] ∧
      cipher ['B', 'c'] [['B'], ['b']] false = .ok ['A', 'b'] :=
  claim_c1_roundtrip ['A', 'b'] ['B'] [['B'], ['b']] ['B', 'c']
    (by decide) (by decide) (by decide) (by decide)

/-- **C2**: the code has no empty-key guard and no `InvalidKey` error: with
an empty key, `generate_key` raises an unguarded `ZeroDivisionError`
(`i % len(key)` with `len(key) = 0`) for every non-empty text, and for the
empty text (n = 0) it does not fail at all — it returns the empty expanded
key. -/
theorem claim_c2_empty_key (T : List Char) :
    generate_key [] [] = .ok [] ∧
      (T ≠ [] → generate_key T [] = .error .zeroDivisionError) := by
  refine ⟨by decide, fun hT => ?_⟩
  have h1 : T.length ≠ 0 := fun h => hT (List.length_eq_zero.mp h)
  unfold generate_key
  simp [h1]

/-- **C2** witness: the empty key at texts `""` and `"A"`. -/
theorem claim_c2_witness :
    generate_key [] [] = .ok [] ∧
      generate_key ['A'] [] = .error .zeroDivisionError :=
  ⟨(claim_c2_empty_key ['A']).1, (claim_c2_empty_key ['A']).2 (by decide)⟩

/-- **C3**: with a non-empty key, `generate_key` returns a sequence of
length exactly `|T|` whose entry `i` is the key character `K[i mod |K|]`
with its case forced per position: lowercased when the code point of `T[i]`
is ≥ 97, uppercased otherwise. -/
theorem claim_c3_generate_key (T K : List Char) (hK : K ≠ []) :
    ∃ ck, generate_key T K = .ok ck ∧ ck.length = T.length ∧
      ∀ i (hi : i < T.length),
        ck[i]? = some (if 97 ≤ (T.get ⟨i, hi⟩).toNat
          then pyLower (K.getD (i % K.length) 'A')
          else pyUpper (K.getD (i % K.length) 'A')) :=
  generate_key_spec_aux hK

/-- **C3** witness: text `"xY"`, key `"Ab"`. -/
theorem claim_c3_witness :
    ∃ ck, generate_key ['x', 'Y'] ['A', 'b'] = .ok ck ∧
      ck.length = (['x', 'Y'] : List Char).length ∧
      ∀ i (hi : i < (['x', 'Y'] : List Char).length),
        ck[i]? = some (if 97 ≤ ((['x', 'Y'] : List Char).get ⟨i, hi⟩).toNat
          then pyLower ((['A', 'b'] : List Char).getD (i % 2) 'A')
          else pyUpper ((['A', 'b'] : List Char).getD (i % 2) 'A')) :=
  claim_c3_generate_key ['x', 'Y'] ['A', 'b'] (by decide)

/-- **C7**: encrypting the plaintext `"ATTACKATDAWN"` with the key
`"LEMON"` (expanded by `generate_key`) produces exactly the ciphertext
`"LXFOPVEFRNHR"`. -/
theorem claim_c7_attack_at_dawn :
    ∃ ck, generate_key "ATTACKATDAWN".toList "LEMON".toList = .ok ck ∧
      cipher "ATTACKATDAWN".toList ck true = .ok "LXFOPVEFRNHR".toList := by
  refine ⟨[['L'], ['E'], ['M'], ['O'], ['N'], ['L'], ['E'], ['M'], ['O'],
    ['N'], ['L'], ['E']], ?_, ?_⟩ <;> decide

/-- **C4** (amended, restricted to ASCII letters): at every position whose
text character `c` is an ASCII letter (the original claim's broader premise
fails — see the counterexample), with alphabet index `p` and whose aligned
expanded-key entry uppercases to the single letter at index `k`, a
successful `cipher` run outputs the letter at index `(p + k) mod 26` when
encrypting and `(p − k) mod 26` (non-negative modulo) when decrypting,
lowercased when `c` is `a`–`z` and uppercased when `c` is `A`–`Z`; the
output has the same length as the input text. -/
theorem claim_c4_letter_shift (e : Bool) (text : List Char)
    (ck : List (List Char)) (out : List Char)
    (h : cipher text ck e = .ok out) :
    out.length = text.length ∧
    ∀ i (hi : i < text.length) c, text.get ⟨i, hi⟩ = c →
      ((65 ≤ c.toNat ∧ c.toNat ≤ 90) ∨ (97 ≤ c.toNat ∧ c.toNat ≤ 122)) →
      ∀ ek v, ck[i]? = some ek → pyUpperStr ek = [v] →
      ∀ s p k, pyUpper c = [s] → alpIndex ascii_uppercase s = some p →
        alpIndex ascii_uppercase v = some k →
        ∃ a, ascii_uppercase[(if e then (p + k) % 26
            else (((p : Int) - (k : Int)) % 26).toNat)]? = some a ∧
          out[i]? = some (if 97 ≤ c.toNat then Char.ofNat (a.toNat + 32)
            else a) := by
  obtain ⟨hlen, hpos⟩ := cipherList_ok_spec h
  refine ⟨hlen, ?_⟩
  intro i hi c hc hclass ek v hek hv s p k hs hp hk
  obtain ⟨d, hd1, hd2⟩ := hpos i hi
  rw [hc] at hd2
  have hndx : (0 : Nat) + i = i := Nat.zero_add i
  rw [hndx] at hd2
  have hkc : getEntry ck i = .ok ek := by
    unfold getEntry
    rw [hek]
  have hsmem : s ∈ ascii_uppercase := List.getElem?_mem (alpIndex_getElem hp)
  obtain ⟨-, -, hssub⟩ := alphabet_mem_facts s hsmem
  obtain ⟨a, ha, hstep⟩ := cipherChar_eq_of e hs hssub hp hkc hv hk
  have hamem : a ∈ ascii_uppercase := List.getElem?_mem ha
  refine ⟨a, ha, ?_⟩
  rw [hstep] at hd2
  rcases hclass with h2 | h1
  · have hno : ¬(97 ≤ c.toNat ∧ c.toNat ≤ 122) := by omega
    rw [if_neg hno, if_pos h2] at hd2
    obtain ⟨-, hafix, -⟩ := alphabet_mem_facts a hamem
    rw [hafix] at hd2
    have hda : d = a := by simpa using hd2.symm
    rw [if_neg (by omega), ← hda]
    exact hd1
  · rw [if_pos h1] at hd2
    obtain ⟨hl, -, -, -⟩ := alphabet_pyLower a hamem
    rw [hl] at hd2
    have hda : d = Char.ofNat (a.toNat + 32) := by simpa using hd2.symm
    rw [if_pos h1.1, ← hda]
    exact hd1

/-- **C4** counterexample to the original premise "uppercases to a Latin
letter": `ſ` (U+017F) uppercases to `S` (alphabet index 18) and the key
letter `B` has index 1, so the original claim predicts the letter at index
`(18 + 1) mod 26 = 19` (`T`/`t`), but `cipher` emits `ſ` unchanged. -/
theorem claim_c4_counterexample :
    cipher ['ſ'] [['B']] true = .ok ['ſ'] ∧ pyUpper 'ſ' = ['S'] ∧
      alpIndex ascii_uppercase 'S' = some 18 ∧
      alpIndex ascii_uppercase 'B' = some 1 ∧
      ascii_uppercase[(18 + 1) % 26]? = some 'T' ∧
      'ſ' ≠ 'T' ∧ 'ſ' ≠ 't' := by decide

/-- **C4** witness: encrypting `"a"` with key entry `"b"`. -/
theorem claim_c4_witness :
    ∃ a, ascii_uppercase[(if true then (0 + 1) % 26
        else (((0 : Int) - (1 : Int)) % 26).toNat)]? = some a ∧
      (['b'] : List Char)[0]? = some (if 97 ≤ 'a'.toNat
        then Char.ofNat (a.toNat + 32) else a) :=
  (claim_c4_letter_shift true ['a'] [['B']] ['b'] (by decide)).2 0 (by decide)
    'a' (by decide) (by decide) ['B'] 'B' (by decide) (by decide)
    'A' 0 1 (by decide) (by decide) (by decide)

/-- **C5** (amended): every character whose uppercased form does not occur
as a substring of the alphabet is copied unchanged to its output position,
in both modes, for all punctuation, digits, spaces, and non-Latin
characters.  (The original "not one of the 26 letters" premise also admits
`ﬅ`/`ﬆ`, whose uppercase form `"ST"` *is* a substring of the alphabet and
makes `cipher` raise `ValueError` — see the counterexample.) -/
theorem claim_c5_pass_through (e : Bool) (text : List Char)
    (ck : List (List Char)) (out : List Char)
    (h : cipher text ck e = .ok out) :
    ∀ i (hi : i < text.length),
      isSubstr (pyUpper (text.get ⟨i, hi⟩)) ascii_uppercase = false →
      out[i]? = some (text.get ⟨i, hi⟩) := by
  obtain ⟨-, hpos⟩ := cipherList_ok_spec h
  intro i hi hsub
  obtain ⟨d, hd1, hd2⟩ := hpos i hi
  rw [cipherChar_not_substr hsub] at hd2
  have : text.get ⟨i, hi⟩ = d := by simpa using hd2
  rw [← this] at hd1
  exact hd1

/-- **C5** counterexample to the original premise: the uppercased form
`"ST"` of `ﬆ` (U+FB06) is not one of the 26 letters, yet `cipher` does not
copy `ﬆ` unchanged — it raises `ValueError`, because `"ST"` passes the
substring guard and then `alp.index("ST")` fails. -/
theorem claim_c5_counterexample :
    pyUpper 'ﬆ' = ['S', 'T'] ∧ (¬ ∃ u ∈ ascii_uppercase, pyUpper 'ﬆ' = [u]) ∧
      cipher ['ﬆ'] [['B']] true = .error .valueError := by decide

/-- **C5** witness: `"!"` passes through (with an empty key list — the key
is never consulted). -/
theorem claim_c5_witness : (['!'] : List Char)[0]? = some '!' :=
  claim_c5_pass_through true ['!'] [] ['!'] (by decide) 0 (by decide)
    (by decide)

/-- **C9**: a character that is not itself an ASCII letter but whose
uppercased form is one of the 26 Latin letters (`ſ`, `ı`) is emitted
unchanged at its position by a successful `cipher` run, in both modes, even
though the pass-through guard classifies it as a letter and a shifted index
is computed for it. -/
theorem claim_c9_letterlike_unchanged (e : Bool) (text : List Char)
    (ck : List (List Char)) (out : List Char)
    (h : cipher text ck e = .ok out) :
    ∀ i (hi : i < text.length) c, text.get ⟨i, hi⟩ = c →
      ¬((65 ≤ c.toNat ∧ c.toNat ≤ 90) ∨ (97 ≤ c.toNat ∧ c.toNat ≤ 122)) →
      (∃ u ∈ ascii_uppercase, pyUpper c = [u]) →
      out[i]? = some c := by
  obtain ⟨-, hpos⟩ := cipherList_ok_spec h
  intro i hi c hc hclass hletter
  obtain ⟨d, hd1, hd2⟩ := hpos i hi
  rw [hc] at hd2
  rcases cipherChar_ok_inv hd2 with ⟨-, hpc⟩ |
    ⟨s, p, ek, v, k, a, -, -, -, -, -, -, -, hpc⟩
  · have : d = c := by simpa using hpc
    rw [this] at hd1
    exact hd1
  · rw [if_neg (fun h1 => hclass (Or.inr h1)),
      if_neg (fun h2 => hclass (Or.inl h2))] at hpc
    have : d = c := by simpa using hpc
    rw [this] at hd1
    exact hd1

/-- **C9** witness: `ſ` with key entry `"B"` under encryption. -/
theorem claim_c9_witness : (['ſ'] : List Char)[0]? = some 'ſ' :=
  claim_c9_letterlike_unchanged true ['ſ'] [['B']] ['ſ'] (by decide) 0
    (by decide) 'ſ' (by decide) (by decide) (by decide)

/-- **C10** (amended): a successful `cipher` run requires that at every
position whose text character uppercases to a single alphabet letter, the
aligned key entry also uppercases to a single alphabet letter; and when
some such aligned key entry does not, `cipher` fails with an exception
instead of producing output.  (The original claim's final clause — that a
key character that is not an *ASCII letter* is a precondition violation
whenever it aligns with a letter of the text — is false: `ſ` and `ı` are
not ASCII letters yet their uppercase forms are alphabet letters, so
`alp.index(cipher_key[ndx].upper())` succeeds on them; see the
counterexample.) -/
theorem claim_c10_key_precondition (e : Bool) (text : List Char)
    (ck : List (List Char)) :
    (∀ out, cipher text ck e = .ok out →
      ∀ i (hi : i < text.length) u, pyUpper (text.get ⟨i, hi⟩) = [u] →
        u ∈ ascii_uppercase →
        ∃ ek v, ck[i]? = some ek ∧ pyUpperStr ek = [v] ∧
          v ∈ ascii_uppercase) ∧
    (∀ i (hi : i < text.length) u, pyUpper (text.get ⟨i, hi⟩) = [u] →
      u ∈ ascii_uppercase →
      (∀ ek v, ck[i]? = some ek → pyUpperStr ek = [v] →
        v ∉ ascii_uppercase) →
      ∃ er, cipher text ck e = .error er) := by
  have hfirst : ∀ out, cipher text ck e = .ok out →
      ∀ i (hi : i < text.length) u, pyUpper (text.get ⟨i, hi⟩) = [u] →
        u ∈ ascii_uppercase →
        ∃ ek v, ck[i]? = some ek ∧ pyUpperStr ek = [v] ∧
          v ∈ ascii_uppercase := by
    intro out h i hi u hu humem
    obtain ⟨-, hpos⟩ := cipherList_ok_spec h
    obtain ⟨d, -, hd2⟩ := hpos i hi
    rcases cipherChar_ok_inv hd2 with ⟨hsub, -⟩ |
      ⟨s, p, ek, v, k, a, -, -, -, hkc, hv, hk, -, -⟩
    · obtain ⟨-, -, hssub⟩ := alphabet_mem_facts u humem
      rw [hu, hssub] at hsub
      exact Bool.noConfusion hsub
    · have hek : ck[0 + i]? = some ek := by
        unfold getEntry at hkc
        cases hck : ck[0 + i]? with
        | none =>
          rw [hck] at hkc
          exact Except.noConfusion hkc
        | some w =>
          rw [hck] at hkc
          have : w = ek := by simpa using hkc
          rw [this]
      rw [Nat.zero_add] at hek
      exact ⟨ek, v, hek, hv,
        List.getElem?_mem (alpIndex_getElem hk)⟩
  refine ⟨hfirst, ?_⟩
  intro i hi u hu humem hbad
  cases hc : cipher text ck e with
  | error er => exact ⟨er, rfl⟩
  | ok out =>
    exfalso
    obtain ⟨ek, v, h1, h2, h3⟩ := hfirst out hc i hi u hu humem
    exact hbad ek v h1 h2 h3

/-- **C10** counterexample to the original claim's final clause: the key
character `ſ` (code point 383) is not an ASCII letter, yet aligned with the
text letter `'a'` the whole pipeline succeeds — `generate_key` keeps `ſ`
and `cipher` computes `alp.index('ſ'.upper()) = alp.index('S') = 18`,
outputting `'s'` instead of failing. -/
theorem claim_c10_counterexample :
    generate_key ['a'] ['ſ'] = .ok [['ſ']] ∧
      cipher ['a'] [['ſ']] true = .ok ['s'] ∧
      ¬((65 ≤ 'ſ'.toNat ∧ 'ſ'.toNat ≤ 90) ∨
        (97 ≤ 'ſ'.toNat ∧ 'ſ'.toNat ≤ 122)) ∧
      (97 ≤ 'a'.toNat ∧ 'a'.toNat ≤ 122) := by
  decide

/-- **C10** witness: text `"A"` aligned with the non-letter key entry
`"1"` makes `cipher` fail. -/
theorem claim_c10_witness : ∃ er, cipher ['A'] [['1']] true = .error er :=
  (claim_c10_key_precondition true ['A'] [['1']]).2 0 (by decide) 'A'
    (by decide) (by decide)
    (by
      intro ek v h1 h2
      obtain rfl : ['1'] = ek := by simpa using h1
      obtain rfl : '1' = v := by
        have hc : pyUpperStr ['1'] = ['1'] := by decide
        rw [hc] at h2
        simpa using h2
      decide)

/-- **C6** (amended): the program contains no full-Unicode codec variant;
its only codec is the letter-only `cipher`, which passes every character
whose uppercased form does not occur in the alphabet through unchanged
(no code-point shift), contradicting the variant's "no pass-through"
formula. -/
theorem claim_c6_no_full_unicode (e : Bool) (kc : Except PyError (List Char))
    (c : Char) (h : isSubstr (pyUpper c) ascii_uppercase = false) :
    cipherChar e kc c = .ok [c] :=
  cipherChar_not_substr h

/-- **C6** counterexample: encrypting the space character with key letter
`A` leaves code point 32 unchanged, whereas the spec's full-Unicode variant
would produce code point `(32 + 65) mod 0x110000 = 97`. -/
theorem claim_c6_counterexample :
    cipher [' '] [['A']] true = .ok [' '] ∧
      fullUnicodeTransform true [' '.toNat] ['A'.toNat] = [97] ∧
      ' '.toNat = 32 ∧ (32 : Nat) ≠ 97 := by
  decide

/-- **C6** witness: the pass-through at the space character. -/
theorem claim_c6_witness : cipherChar true (.ok ['A']) ' ' = .ok [' '] :=
  claim_c6_no_full_unicode true (.ok ['A']) ' ' (by decide)

/-- **C8** (amended): invoked with a *non-empty* plaintext argument and no
key argument, `cli` takes the usage-error path: it prints the diagnostic
and exits before any transform or file write.  (With an *empty-string*
plaintext argument the Python truthiness test sends it down the decrypt
path instead — see the counterexample.) -/
theorem claim_c8_usage_error (s : String) (h : s ≠ "") :
    cli (some s) none = .usageError := by
  have hse : s.isEmpty = false := by
    rw [Bool.eq_false_iff]
    intro hse
    exact h ((String.isEmpty_iff s).mp hse)
  simp [cli, truthy, hse]

/-- **C8** counterexample to the unrestricted claim: the empty string is a
plaintext argument, yet `cli` does not print the usage diagnostic — it
takes the decryption path (which transforms and writes a persisted record
when `encrypted.json` exists). -/
theorem claim_c8_counterexample :
    cli (some "") none = .decryptPath ∧
      CliAction.decryptPath ≠ CliAction.usageError := by
  decide

/-- **C8** witness: the one-word plaintext `"x"` without a key. -/
theorem claim_c8_witness : cli (some "x") none = .usageError :=
  claim_c8_usage_error "x" (by decide)
